import Mathlib

/-!
Verification of `src/generate-json.js` (carlos-posts): a shallow embedding of
the front-matter parser (`parseFrontMatter`), the regex-chain Markdown
renderer (`markdownToHtml`) and the collector (`generateJson`), with strings
modelled as `List Char`.  JavaScript regex semantics (greedy/non-greedy
matching, multiline anchors, the character classes \w and \s and the line
terminators recognised by `.` and `$`) are translated pattern by pattern.
JSON numbers are kept as their lexemes: the pipeline never inspects a
numeric value (top-level front-matter values are strings, booleans or
arrays), so IEEE-754 conversion is irrelevant to every claim.  Characters
compare by Unicode code point, which agrees with JavaScript UTF-16 order on
the Basic Multilingual Plane; all inputs of interest are ASCII.
-/

/-- The characters of a string literal, as the `List Char` string model. -/
def chars (s : String) : List Char := s.data

/-- Code point of a character. -/
def cn (c : Char) : Nat := c.toNat

/-- Double quote character. -/
def quoteD : Char := Char.ofNat 34

/-- Single quote character. -/
def quoteS : Char := Char.ofNat 39

/-- Backtick character. -/
def btick : Char := Char.ofNat 96

/-- Backslash character. -/
def bslash : Char := Char.ofNat 92

/-- Opening brace character. -/
def braceL : Char := Char.ofNat 123

/-- Closing brace character. -/
def braceR : Char := Char.ofNat 125

/-- JavaScript line terminators: LF, CR, LS, PS (matched by multiline `^`/`$`,
excluded by `.`). -/
def isLineTerm (c : Char) : Bool :=
  cn c = 10 || cn c = 13 || cn c = 0x2028 || cn c = 0x2029

/-- JavaScript `\s` (also the set trimmed by `String.prototype.trim`):
whitespace plus line terminators. -/
def isJsWs (c : Char) : Bool :=
  cn c = 9 || cn c = 10 || cn c = 11 || cn c = 12 || cn c = 13 || cn c = 32 ||
  cn c = 0xa0 || cn c = 0x1680 || (0x2000 ≤ cn c && cn c ≤ 0x200a) ||
  cn c = 0x2028 || cn c = 0x2029 || cn c = 0x202f || cn c = 0x205f ||
  cn c = 0x3000 || cn c = 0xfeff

/-- JavaScript `\w`: ASCII letters, digits and underscore. -/
def isW (c : Char) : Bool :=
  (65 ≤ cn c && cn c ≤ 90) || (97 ≤ cn c && cn c ≤ 122) ||
  (48 ≤ cn c && cn c ≤ 57) || cn c = 95

/-- ASCII digit. -/
def isDigit (c : Char) : Bool := 48 ≤ cn c && cn c ≤ 57

/-- ASCII hex digit. -/
def isHexDigit (c : Char) : Bool :=
  isDigit c || (97 ≤ cn c && cn c ≤ 102) || (65 ≤ cn c && cn c ≤ 70)

/-- Value of a hex digit. -/
def hexVal (c : Char) : Nat :=
  if isDigit c then cn c - 48
  else if 97 ≤ cn c then cn c - 87
  else cn c - 55

/-- List-prefix test (used for literal regex fragments). -/
def isPfx : List Char → List Char → Bool
  | [], _ => true
  | _ :: _, [] => false
  | a :: as, b :: bs => a = b && isPfx as bs

/-- JavaScript `String.prototype.trim`: drop `\s` characters from both ends. -/
def trimJs (s : List Char) : List Char :=
  ((s.dropWhile isJsWs).reverse.dropWhile isJsWs).reverse

/-- A JavaScript value as it can appear in the parsed front-matter data object
(and inside values produced by `JSON.parse`).  Numbers are kept as their
source lexeme, see the header comment. -/
inductive JSValue where
  | nul : JSValue
  | bool : Bool → JSValue
  | num : List Char → JSValue
  | str : List Char → JSValue
  | arr : List JSValue → JSValue
  | obj : List (List Char × JSValue) → JSValue

/-- Whether a `JSValue` is a string. -/
def JSValue.isStr : JSValue → Bool
  | .str _ => true
  | _ => false

/-- JavaScript truthiness of a defined value.  A number lexeme is falsy iff
its mantissa is all zeros (extreme exponents that underflow to floating-point
zero are not modelled; no pipeline value is a top-level number). -/
def isTruthy : JSValue → Bool
  | .nul => false
  | .bool b => b
  | .str s => !s.isEmpty
  | .num lit => (lit.filter isDigit).any (fun c => c ≠ '0')
  | .arr _ => true
  | .obj _ => true

/-- JSON whitespace accepted by `JSON.parse`: tab, LF, CR, space. -/
def isJsonWs (c : Char) : Bool :=
  cn c = 9 || cn c = 10 || cn c = 13 || cn c = 32

/-- Skip JSON whitespace. -/
def skipJWs (s : List Char) : List Char := s.dropWhile isJsonWs

/-- Body of a JSON string after the opening quote: returns the decoded
characters and the remainder after the closing quote.  `\uXXXX` escapes are
decoded to the code unit's character (surrogate pairing is not modelled; no
claim involves such escapes). -/
def parseStrChars : List Char → Option (List Char × List Char)
  | [] => none
  | c :: rest =>
    if c = quoteD then some ([], rest)
    else if c = bslash then
      match rest with
      | [] => none
      | e :: rest2 =>
        if e = quoteD then (parseStrChars rest2).map (fun p => (quoteD :: p.1, p.2))
        else if e = bslash then (parseStrChars rest2).map (fun p => (bslash :: p.1, p.2))
        else if e = '/' then (parseStrChars rest2).map (fun p => ('/' :: p.1, p.2))
        else if e = 'b' then (parseStrChars rest2).map (fun p => (Char.ofNat 8 :: p.1, p.2))
        else if e = 'f' then (parseStrChars rest2).map (fun p => (Char.ofNat 12 :: p.1, p.2))
        else if e = 'n' then (parseStrChars rest2).map (fun p => ('\n' :: p.1, p.2))
        else if e = 'r' then (parseStrChars rest2).map (fun p => ('\r' :: p.1, p.2))
        else if e = 't' then (parseStrChars rest2).map (fun p => ('\t' :: p.1, p.2))
        else if e = 'u' then
          match rest2 with
          | h1 :: h2 :: h3 :: h4 :: rest3 =>
            if isHexDigit h1 && isHexDigit h2 && isHexDigit h3 && isHexDigit h4 then
              (parseStrChars rest3).map (fun p =>
                (Char.ofNat (((hexVal h1 * 16 + hexVal h2) * 16 + hexVal h3) * 16 + hexVal h4) :: p.1, p.2))
            else none
          | _ => none
        else none
    else if cn c < 32 then none
    else (parseStrChars rest).map (fun p => (c :: p.1, p.2))

/-- JSON number: `-? (0 | [1-9][0-9]*) (. [0-9]+)? ([eE] [+-]? [0-9]+)?`.
Returns the lexeme and the remainder. -/
def parseNum (s : List Char) : Option (List Char × List Char) :=
  let (neg, s1) := match s with
    | c :: r => if c = '-' then ([c], r) else ([], s)
    | [] => ([], s)
  match s1 with
  | [] => none
  | c :: r =>
    if ¬ isDigit c then none
    else
      let (ip, s2) :=
        if c = '0' then ([c], r)
        else (c :: r.takeWhile isDigit, r.dropWhile isDigit)
      let fracRes : Option (List Char × List Char) :=
        match s2 with
        | '.' :: r2 =>
          let ds := r2.takeWhile isDigit
          if ds.isEmpty then none else some ('.' :: ds, r2.dropWhile isDigit)
        | _ => some ([], s2)
      match fracRes with
      | none => none
      | some (fp, s3) =>
        let expRes : Option (List Char × List Char) :=
          match s3 with
          | e :: r3 =>
            if e = 'e' || e = 'E' then
              let (sg, r4) := match r3 with
                | g :: r5 => if g = '+' || g = '-' then ([g], r5) else ([], r3)
                | [] => ([], r3)
              let ds := r4.takeWhile isDigit
              if ds.isEmpty then none else some (e :: (sg ++ ds), r4.dropWhile isDigit)
            else some ([], s3)
          | [] => some ([], s3)
        match expRes with
        | none => none
        | some (ep, s4) => some (neg ++ ip ++ fp ++ ep, s4)

mutual

/-- Fuelled JSON value parser (recursive descent, as `JSON.parse`). -/
def parseVal : Nat → List Char → Option (JSValue × List Char)
  | 0, _ => none
  | Nat.succ f, s =>
    match skipJWs s with
    | [] => none
    | c :: rest =>
      if c = '[' then
        match skipJWs rest with
        | ']' :: r2 => some (.arr [], r2)
        | _ => (parseElems f rest).map (fun p => (JSValue.arr p.1, p.2))
      else if c = braceL then
        match skipJWs rest with
        | r2 :: r3 =>
          if r2 = braceR then some (.obj [], r3)
          else (parseMembers f (r2 :: r3)).map (fun p => (JSValue.obj p.1, p.2))
        | [] => none
      else if c = quoteD then
        (parseStrChars rest).map (fun p => (JSValue.str p.1, p.2))
      else if isPfx (chars "true") (c :: rest) then some (.bool true, (c :: rest).drop 4)
      else if isPfx (chars "false") (c :: rest) then some (.bool false, (c :: rest).drop 5)
      else if isPfx (chars "null") (c :: rest) then some (.nul, (c :: rest).drop 4)
      else if c = '-' || isDigit c then
        (parseNum (c :: rest)).map (fun p => (JSValue.num p.1, p.2))
      else none

/-- Elements of a JSON array after the opening bracket (nonempty case). -/
def parseElems : Nat → List Char → Option (List JSValue × List Char)
  | 0, _ => none
  | Nat.succ f, s =>
    match parseVal f s with
    | none => none
    | some (v, r) =>
      match skipJWs r with
      | ',' :: r2 =>
        (parseElems f r2).map (fun p => (v :: p.1, p.2))
      | ']' :: r2 => some ([v], r2)
      | _ => none

/-- Members of a JSON object after the opening brace (nonempty case). -/
def parseMembers : Nat → List Char → Option (List (List Char × JSValue) × List Char)
  | 0, _ => none
  | Nat.succ f, s =>
    match skipJWs s with
    | k :: r =>
      if k = quoteD then
        match parseStrChars r with
        | none => none
        | some (key, r2) =>
          match skipJWs r2 with
          | ':' :: r3 =>
            match parseVal f r3 with
            | none => none
            | some (v, r4) =>
              match skipJWs r4 with
              | ',' :: r5 => (parseMembers f r5).map (fun p => ((key, v) :: p.1, p.2))
              | b :: r5 => if b = braceR then some ([(key, v)], r5) else none
              | [] => none
          | _ => none
      else none
    | [] => none

end

/-- `JSON.parse`: parse one value and require only whitespace to follow.
The fuel `2 * length + 8` exceeds the number of recursive calls possible
while scanning the input once. -/
def jsonParse (s : List Char) : Option JSValue :=
  match parseVal (2 * s.length + 8) s with
  | some (v, r) => if (skipJWs r).isEmpty then some v else none
  | none => none

/-! ## Front-matter extraction: the regex `FM_REGEX` -/

/-- The non-greedy search for the closing delimiter of
`^---\r?\n([\s\S]*?)\r?\n---\r?\n?([\s\S]*)$`: split the text at the first
position where `\r?\n---` matches (the `\r` taken greedily), returning the
block before it and the text just after the three dashes. -/
def findClose : List Char → Option (List Char × List Char)
  | [] => none
  | c :: rest =>
    if isPfx (chars "\r\n---") (c :: rest) then some ([], (c :: rest).drop 5)
    else if isPfx (chars "\n---") (c :: rest) then some ([], (c :: rest).drop 4)
    else (findClose rest).map (fun p => (c :: p.1, p.2))

/-- After the closing `---`, the regex consumes `\r?\n?` greedily. -/
def dropCrLf (s : List Char) : List Char :=
  let s1 := match s with
    | c :: r => if c = '\r' then r else s
    | [] => s
  match s1 with
  | c :: r => if c = '\n' then r else s1
  | [] => s1

/-- Match of `FM_REGEX` against the document: the opening `---\r?\n` must be a
prefix; the block then ends at the first `\r?\n---`.  Returns the YAML block
and the remaining content, or `none` when the regex does not match. -/
def fmSplit (raw : List Char) : Option (List Char × List Char) :=
  if isPfx (chars "---\r\n") raw then
    (findClose (raw.drop 5)).map (fun p => (p.1, dropCrLf p.2))
  else if isPfx (chars "---\n") raw then
    (findClose (raw.drop 4)).map (fun p => (p.1, dropCrLf p.2))
  else none

/-! ## The line-oriented YAML scanner -/

/-- `yamlBlock.split("\n")`. -/
def splitNl : List Char → List (List Char)
  | [] => [[]]
  | c :: rest =>
    if c = '\n' then [] :: splitNl rest
    else
      match splitNl rest with
      | l :: ls => (c :: l) :: ls
      | [] => [[c]]

/-- Match of `/^(\w[\w-]*):\s*(.*)/` against one line: returns the key and the
second capture (the rest of the line after the colon and any whitespace,
stopped at a line terminator as `.` requires). -/
def keyMatch (line : List Char) : Option (List Char × List Char) :=
  match line with
  | [] => none
  | c :: rest =>
    if isW c then
      let kTail := rest.takeWhile (fun d => isW d || d = '-')
      match rest.dropWhile (fun d => isW d || d = '-') with
      | ':' :: r2 =>
        let r3 := r2.dropWhile isJsWs
        some (c :: kTail, r3.takeWhile (fun d => !isLineTerm d))
      | _ => none
    else none

/-- Match of `/^\s+-\s+/` against a line: whitespace, a dash, whitespace, with
both runs taken greedily; returns the line with the matched prefix removed
(the block-array item text). -/
def blockItem (line : List Char) : Option (List Char) :=
  let w := line.takeWhile isJsWs
  if w.isEmpty then none
  else
    match line.dropWhile isJsWs with
    | '-' :: r2 =>
      let m := r2.takeWhile isJsWs
      if m.isEmpty then none else some (r2.dropWhile isJsWs)
    | _ => none

/-- Whether a character is a single or double quote. -/
def isQuote (c : Char) : Bool := c = quoteD || c = quoteS

/-- `s.replace(/^["']|["']$/g, "")`: one leading quote (if any) and one
trailing quote (if any, and not the same character) are removed; the two
removals are independent and the quotes need not match. -/
def stripQuotes (s : List Char) : List Char :=
  let s1 := match s with
    | c :: rest => if isQuote c then rest else s
    | [] => []
  match s1.getLast? with
  | some c => if isQuote c then s1.dropLast else s1
  | none => s1

/-- Exact match of `/^\d{4}-\d{2}-\d{2}$/`. -/
def isDateStr : List Char → Bool
  | [a, b, c, d, h1, e, f, h2, g, i] =>
    isDigit a && isDigit b && isDigit c && isDigit d && h1 = '-' &&
    isDigit e && isDigit f && h2 = '-' && isDigit g && isDigit i
  | _ => false

/-- The inner loop of the scanner's block-array branch: consume consecutive
lines matching `/^\s+-\s+/`, pushing each item with its surrounding quotes
stripped; return the items and the unconsumed lines. -/
def takeBlockItems : List (List Char) → List (List Char) × List (List Char)
  | [] => ([], [])
  | l :: ls =>
    match blockItem l with
    | some item =>
      let (items, rest) := takeBlockItems ls
      (stripQuotes item :: items, rest)
    | none => ([], l :: ls)

/-- The front-matter data object.  Later assignments to a key shadow earlier
ones, so bindings are prepended and lookups take the first match. -/
def Assoc : Type := List (List Char × JSValue)

/-- Property access `data[key]` (`none` is JavaScript `undefined`). -/
def lookupKey (k : List Char) : List (List Char × JSValue) → Option JSValue
  | [] => none
  | (k2, v) :: rest => if k2 = k then some v else lookupKey k rest

/-- `rest.replace(/'/g, '"')`. -/
def normQuotes (s : List Char) : List Char :=
  s.map (fun c => if c = quoteS then quoteD else c)

/-- `data[key] = v` on the plain object `data`.  A normal key creates or
overwrites an own property (prepended binding, first-match lookup).  The key
`__proto__` instead reaches the inherited accessor of `Object.prototype`:
the assignment creates no own property for any value the scanner produces
(primitives are ignored; an array value only retargets the prototype, which
no later read of the collector's fixed keys can observe), so it is a silent
no-op for the stored data. -/
def setKey (data : List (List Char × JSValue)) (k : List Char) (v : JSValue) :
    List (List Char × JSValue) :=
  if k = chars "__proto__" then data else (k, v) :: data

/-- The while loop of the simple YAML parser, over the block's lines.  `none`
models the `JSON.parse` exception escaping from the flow-array branch.  The
fuel is the number of lines still to scan; every step consumes at least one
line, so `fuel = lines.length` never runs out. -/
def parseLinesF : Nat → List (List Char) → List (List Char × JSValue) → Option (List (List Char × JSValue))
  | _, [], acc => some acc
  | 0, _ :: _, _ => none
  | Nat.succ f, l :: ls, acc =>
    match keyMatch l with
    | none => parseLinesF f ls acc
    | some (k, r0) =>
      let rest := trimJs r0
      if rest.isEmpty then
        let (items, ls2) := takeBlockItems ls
        parseLinesF f ls2 (setKey acc k (JSValue.arr (items.map JSValue.str)))
      else if isPfx (chars "[") rest then
        match jsonParse (normQuotes rest) with
        | none => none
        | some v => parseLinesF f ls (setKey acc k v)
      else if rest = chars "true" then parseLinesF f ls (setKey acc k (JSValue.bool true))
      else if rest = chars "false" then parseLinesF f ls (setKey acc k (JSValue.bool false))
      else if isDateStr rest then parseLinesF f ls (setKey acc k (JSValue.str rest))
      else parseLinesF f ls (setKey acc k (JSValue.str (stripQuotes rest)))

/-- `parseFrontMatter(raw)`: returns `(data, content)`; `none` models the
uncaught `JSON.parse` exception on a malformed flow array. -/
def parseFrontMatter (raw : List Char) : Option (List (List Char × JSValue) × List Char) :=
  match fmSplit raw with
  | none => some ([], raw)
  | some (block, content) =>
    let lines := splitNl block
    match parseLinesF lines.length lines [] with
    | none => none
    | some data => some (data, content)

/-! ## Markdown renderer: the ordered regex-substitution chain -/

/-- Global single-character replacement (`String.prototype.replace` with a
one-character global pattern). -/
def replaceChar (c : Char) (repl : List Char) : List Char → List Char
  | [] => []
  | d :: rest =>
    if d = c then repl ++ replaceChar c repl rest else d :: replaceChar c repl rest

/-- `escapeHtml`: replace `&`, then `<`, then `>`, in that order. -/
def escapeHtml (s : List Char) : List Char :=
  replaceChar '>' (chars "&gt;")
    (replaceChar '<' (chars "&lt;")
      (replaceChar '&' (chars "&amp;") s))

/-- Global-replace engine for an unanchored pattern: at each position try
`step` (which, on a match at the head of its argument, returns the
replacement text and the remainder after the match); on failure emit one
character and continue.  Every pattern in the chain consumes at least one
character on a match, so `fuel = s.length` (see `gsub`) never runs out. -/
def gsubF (step : List Char → Option (List Char × List Char)) : Nat → List Char → List Char
  | 0, s => s
  | _ + 1, [] => []
  | Nat.succ f, c :: rest =>
    match step (c :: rest) with
    | some (repl, rest2) => repl ++ gsubF step f rest2
    | none => c :: gsubF step f rest

/-- Global replace of an unanchored pattern. -/
def gsub (step : List Char → Option (List Char × List Char)) (s : List Char) : List Char :=
  gsubF step s.length s

/-- Global-replace engine for a `^`-anchored multiline pattern: `step` is
tried only at the start of the string or just after a line terminator.  All
anchored patterns of the chain (headings, list items, `---`) produce matches
ending in a non-line-terminator, so scanning resumes mid-line after a
replacement. -/
def gsubLineF (step : List Char → Option (List Char × List Char)) : Nat → Bool → List Char → List Char
  | 0, _, s => s
  | _ + 1, _, [] => []
  | Nat.succ f, atStart, c :: rest =>
    match (if atStart then step (c :: rest) else none) with
    | some (repl, rest2) => repl ++ gsubLineF step f false rest2
    | none => c :: gsubLineF step f (isLineTerm c) rest

/-- Global replace of a `^`-anchored multiline pattern. -/
def gsubLine (step : List Char → Option (List Char × List Char)) (s : List Char) : List Char :=
  gsubLineF step s.length true s

/-- Split at the first occurrence of a literal (the non-greedy `[\s\S]*?`
followed by that literal). -/
def splitFirst (pat : List Char) : List Char → Option (List Char × List Char)
  | [] => none
  | c :: rest =>
    if isPfx pat (c :: rest) then some ([], (c :: rest).drop pat.length)
    else (splitFirst pat rest).map (fun p => (c :: p.1, p.2))

/-- Step for ``/```(\w*)\n([\s\S]*?)```/g``: three backticks, a greedy word
run that must be followed by a newline, then the shortest body ending at
three backticks; the replacement escapes the trimmed body. -/
def cbStep (s : List Char) : Option (List Char × List Char) :=
  if isPfx [btick, btick, btick] s then
    let t := s.drop 3
    let lang := t.takeWhile isW
    match t.dropWhile isW with
    | c :: body0 =>
      if c = '\n' then
        match splitFirst [btick, btick, btick] body0 with
        | some (code, rest) =>
          some (chars "<pre><code" ++
            (if lang.isEmpty then [] else chars " class=\"language-" ++ lang ++ [quoteD]) ++
            chars ">" ++ escapeHtml (trimJs code) ++ chars "</code></pre>", rest)
        | none => none
      else none
    | [] => none
  else none

/-- Step for `` /`([^`]+)`/g ``: a backtick, one or more non-backticks, a
closing backtick; the content is escaped. -/
def icStep (s : List Char) : Option (List Char × List Char) :=
  match s with
  | [] => none
  | c :: t =>
    if c = btick then
      let content := t.takeWhile (fun d => d ≠ btick)
      if content.isEmpty then none
      else
        match t.drop content.length with
        | d :: r2 =>
          if d = btick then
            some (chars "<code>" ++ escapeHtml content ++ chars "</code>", r2)
          else none
        | [] => none
    else none

/-- The `\s+(.+)$` tail shared by the heading and list-item patterns, applied
after the marker.  The greedy `\s+` (which may cross line breaks) backtracks
from the full whitespace run down to one character until the greedy `(.+)`
(line-terminator-free, nonempty) can match; `$` then holds automatically.
The argument is the remaining length of `\s+` to try. -/
def msSearch (q : List Char) : Nat → Option (List Char × List Char)
  | 0 => none
  | Nat.succ n =>
    let t := q.drop (n + 1)
    let cap := t.takeWhile (fun c => !isLineTerm c)
    if cap.isEmpty then msSearch q n
    else some (cap, t.drop cap.length)

/-- Step for `/^#{k}\s+(.+)$/gm` with replacement `openT$1closeT` (no extra
check for a further `#` is needed: `\s+` fails on it). -/
def headingStep (k : Nat) (openT closeT : List Char) (s : List Char) : Option (List Char × List Char) :=
  if isPfx (List.replicate k '#') s then
    let q := s.drop k
    match msSearch q (q.takeWhile isJsWs).length with
    | some (cap, rest) => some (openT ++ cap ++ closeT, rest)
    | none => none
  else none

/-- Step for `/^[-*]\s+(.+)$/gm` → `<li>$1</li>`. -/
def liStep (s : List Char) : Option (List Char × List Char) :=
  match s with
  | [] => none
  | c :: q =>
    if c = '-' || c = '*' then
      match msSearch q (q.takeWhile isJsWs).length with
      | some (cap, rest) => some (chars "<li>" ++ cap ++ chars "</li>", rest)
      | none => none
    else none

/-- Step for `/^---$/gm` → `<hr>`. -/
def hrStep (s : List Char) : Option (List Char × List Char) :=
  if isPfx (chars "---") s then
    match s.drop 3 with
    | [] => some (chars "<hr>", [])
    | c :: r => if isLineTerm c then some (chars "<hr>", c :: r) else none
  else none

/-- Non-greedy `(.+?)` followed by a closing literal: the shortest nonempty
line-terminator-free content after which the literal matches. -/
def emphContent (close : List Char) : List Char → Option (List Char × List Char)
  | [] => none
  | c :: rest =>
    if isLineTerm c then none
    else if isPfx close rest then some ([c], rest.drop close.length)
    else (emphContent close rest).map (fun p => (c :: p.1, p.2))

/-- Step for the emphasis patterns `/\*\*\*(.+?)\*\*\*/g`, `/\*\*(.+?)\*\*/g`
and `/\*(.+?)\*/g`. -/
def emphStep (marker pre post : List Char) (s : List Char) : Option (List Char × List Char) :=
  if isPfx marker s then
    match emphContent marker (s.drop marker.length) with
    | some (content, rest) => some (pre ++ content ++ post, rest)
    | none => none
  else none

/-- Step for `/\[([^\]]+)\]\(([^)]+)\)/g` → `<a href="$2">$1</a>`. -/
def linkStep (s : List Char) : Option (List Char × List Char) :=
  match s with
  | '[' :: t =>
    let txt := t.takeWhile (fun d => d ≠ ']')
    if txt.isEmpty then none
    else
      match t.drop txt.length with
      | ']' :: '(' :: u =>
        let url := u.takeWhile (fun d => d ≠ ')')
        if url.isEmpty then none
        else
          match u.drop url.length with
          | ')' :: r =>
            some (chars "<a href=\"" ++ url ++ chars "\">" ++ txt ++ chars "</a>", r)
          | _ => none
      | _ => none
  | _ => none

/-- Split a line at the last occurrence of `</li>` in it (the greedy `.*`
of `<li>.*<\/li>` backtracks to the last closing tag on the line). -/
def splitLastCloseLi : List Char → Option (List Char × List Char)
  | [] => none
  | c :: rest =>
    match splitLastCloseLi rest with
    | some (a, b) => some (c :: a, b)
    | none => if isPfx (chars "</li>") (c :: rest) then some ([], (c :: rest).drop 5) else none

/-- One `<li>.*<\/li>\n?` unit of the list-wrapping pattern: `<li>`, then the
rest of the line up to its last `</li>`, then an optional newline (taken
greedily).  Returns the matched text and the remainder. -/
def liUnit (s : List Char) : Option (List Char × List Char) :=
  if isPfx (chars "<li>") s then
    let t := s.drop 4
    let line := t.takeWhile (fun c => !isLineTerm c)
    let rest0 := t.dropWhile (fun c => !isLineTerm c)
    match splitLastCloseLi line with
    | some (content, after) =>
      let unit := chars "<li>" ++ content ++ chars "</li>"
      match after ++ rest0 with
      | c :: r2 => if c = '\n' then some (unit ++ ['\n'], c :: r2 |>.drop 1)
                   else some (unit, c :: r2)
      | [] => some (unit, [])
    | none => none
  else none

/-- The greedy `(<li>.*<\/li>\n?)+`: one or more units.  A failed further
unit does not reopen earlier choices, because nothing follows the `+` in the
pattern.  Each unit consumes at least nine characters, so `fuel = s.length`
never runs out. -/
def liRunF : Nat → List Char → Option (List Char × List Char)
  | 0, _ => none
  | Nat.succ f, s =>
    match liUnit s with
    | none => none
    | some (u, rest) =>
      match liRunF f rest with
      | some (more, rest2) => some (u ++ more, rest2)
      | none => some (u, rest)

/-- Step for `/(<li>.*<\/li>\n?)+/g` → `<ul>$&</ul>`. -/
def liWrapStep (s : List Char) : Option (List Char × List Char) :=
  (liRunF s.length s).map (fun p => (chars "<ul>" ++ p.1 ++ chars "</ul>", p.2))

/-- `html.split(/\n{2,}/)`: split at each maximal run of two or more
newlines.  Fuelled; `fuel = s.length` never runs out. -/
def splitBlanksF : Nat → List Char → List (List Char)
  | _, [] => [[]]
  | 0, s => [s]
  | Nat.succ f, c :: rest =>
    if c = '\n' then
      match rest with
      | c2 :: rest2 =>
        if c2 = '\n' then
          [] :: splitBlanksF f (rest2.dropWhile (fun d => d = '\n'))
        else
          match splitBlanksF f rest with
          | l :: ls => (c :: l) :: ls
          | [] => [[c]]
      | [] => [[c]]
    else
      match splitBlanksF f rest with
      | l :: ls => (c :: l) :: ls
      | [] => [[c]]

/-- Test of `/^<(h[1-6]|ul|ol|li|pre|hr|blockquote)/`. -/
def isBlockTag (s : List Char) : Bool :=
  match s with
  | '<' :: rest =>
    (match rest with
     | 'h' :: d :: _ => 49 ≤ cn d && cn d ≤ 54
     | _ => false) ||
    isPfx (chars "ul") rest || isPfx (chars "ol") rest || isPfx (chars "li") rest ||
    isPfx (chars "pre") rest || isPfx (chars "hr") rest || isPfx (chars "blockquote") rest
  | _ => false

/-- The per-block mapping of the paragraph pass: trim, drop empty blocks,
pass block-level tags through, wrap the rest in `<p>` with inner newlines
replaced by spaces. -/
def paraBlock (b : List Char) : List Char :=
  let b2 := trimJs b
  if b2.isEmpty then []
  else if isBlockTag b2 then b2
  else chars "<p>" ++ replaceChar '\n' [' '] b2 ++ chars "</p>"

/-- `join("\n")`. -/
def joinNl : List (List Char) → List Char
  | [] => []
  | [b] => b
  | b :: bs => b ++ '\n' :: joinNl bs

/-- The paragraph-wrapping post-pass. -/
def paraPass (s : List Char) : List Char :=
  joinNl ((splitBlanksF s.length s).map paraBlock)

/-- `markdownToHtml(md)`: the fixed substitution chain, in source order. -/
def markdownToHtml (md : List Char) : List Char :=
  let h1 := gsub cbStep md
  let h2 := gsub icStep h1
  let h3 := gsubLine (headingStep 4 (chars "<h4>") (chars "</h4>")) h2
  let h4 := gsubLine (headingStep 3 (chars "<h3>") (chars "</h3>")) h3
  let h5 := gsubLine (headingStep 2 (chars "<h2>") (chars "</h2>")) h4
  let h6 := gsubLine (headingStep 1 (chars "<h1>") (chars "</h1>")) h5
  let h7 := gsub (emphStep (chars "***") (chars "<strong><em>") (chars "</em></strong>")) h6
  let h8 := gsub (emphStep (chars "**") (chars "<strong>") (chars "</strong>")) h7
  let h9 := gsub (emphStep (chars "*") (chars "<em>") (chars "</em>")) h8
  let h10 := gsubLine liStep h9
  let h11 := gsubLine hrStep h10
  let h12 := gsub linkStep h11
  let h13 := gsub liWrapStep h12
  paraPass h13

/-! ## The collector `generateJson` -/

/-- A rendered post (`tags` is always an array and `featured` a boolean by
construction in the source; the other fields carry whatever value the `||`
defaulting produced). -/
structure Post where
  title : JSValue
  slug : JSValue
  date : JSValue
  summary : JSValue
  tags : List JSValue
  featured : Bool
  content : List Char

/-- `v || dflt` for a possibly-undefined value. -/
def jsOr (v : Option JSValue) (dflt : JSValue) : JSValue :=
  match v with
  | some x => if isTruthy x then x else dflt
  | none => dflt

/-- `v === true` for a possibly-undefined value. -/
def isTrueJS : Option JSValue → Bool
  | some (.bool true) => true
  | _ => false

/-- JavaScript `<` on strings: lexicographic by code unit. -/
def strLt : List Char → List Char → Bool
  | _, [] => false
  | [], _ :: _ => true
  | a :: as, b :: bs =>
    if cn a < cn b then true else if cn b < cn a then false else strLt as bs

/-- The comparator's `a.date < b.date`.  Comparisons where either side is not
a string go through JavaScript ToPrimitive/ToNumber (floating point) and are
modelled as false; the collector produces string dates whenever the parsed
`date` is a string or absent, and every claim concerns string dates. -/
def jsLt : JSValue → JSValue → Bool
  | .str a, .str b => strLt a b
  | _, _ => false

/-- Insertion respecting the comparator `(a, b) => (a.date < b.date ? 1 : -1)`:
`p` is placed before the first element it need not follow. -/
def insertPost (p : Post) : List Post → List Post
  | [] => [p]
  | q :: qs => if jsLt p.date q.date then q :: insertPost p qs else p :: q :: qs

/-- `.sort` with the date comparator: sorted descending by date.  The order
of equal dates under V8's sort is not modelled (the spec leaves ties
undefined); every claim either ignores order or has pairwise-distinct
dates. -/
def sortPosts (ps : List Post) : List Post := ps.foldr insertPost []

/-- `filename.replace(".md", "")`: remove the first occurrence, if any. -/
def replaceFirst (pat : List Char) : List Char → List Char
  | [] => []
  | c :: rest =>
    if isPfx pat (c :: rest) then (c :: rest).drop pat.length
    else c :: replaceFirst pat rest

/-- `String.prototype.endsWith` as a suffix test. -/
def isSfx (pat s : List Char) : Bool := isPfx pat.reverse s.reverse

/-- Per-file processing inside `generateJson`'s `.map`: `none` is the
uncaught parse exception, `some none` a skipped draft, `some (some p)` a
rendered post. -/
def processFile (filename raw : List Char) : Option (Option Post) :=
  match parseFrontMatter raw with
  | none => none
  | some (data, content) =>
    if isTrueJS (lookupKey (chars "draft") data) then some none
    else some (some
      { title := jsOr (lookupKey (chars "title") data) (.str [])
        slug := jsOr (lookupKey (chars "slug") data) (.str (replaceFirst (chars ".md") filename))
        date := jsOr (lookupKey (chars "date") data) (.str [])
        summary := jsOr (lookupKey (chars "summary") data) (.str [])
        tags := match lookupKey (chars "tags") data with
          | some (.arr xs) => xs
          | _ => []
        featured := isTrueJS (lookupKey (chars "featured") data)
        content := markdownToHtml content })

/-- The `.map` over the file list (an exception in any file aborts the run). -/
def mapPosts : List (List Char × List Char) → Option (List (Option Post))
  | [] => some []
  | f :: fs =>
    match processFile f.1 f.2 with
    | none => none
    | some r => (mapPosts fs).map (fun rs => r :: rs)

/-- `generateJson` on a directory listing of `(filename, raw text)` pairs:
keep `.md` files, render each, drop the drafts, sort by date descending. -/
def generateJson (files : List (List Char × List Char)) : Option (List Post) :=
  let mds := files.filter (fun f => isSfx (chars ".md") f.1)
  (mapPosts mds).map (fun rs => sortPosts (rs.filterMap id))

/-! ## Predicates used in claim statements -/

/-- Substring occurrence. -/
def hasSubstr (pat : List Char) : List Char → Bool
  | [] => isPfx pat []
  | c :: rest => isPfx pat (c :: rest) || hasSubstr pat rest

/-- A front-matter line on which the flow-array branch is reached and
`JSON.parse` fails: a `key: value` match whose trimmed value is nonempty,
starts with `[`, and (after quote normalization) is not valid JSON. -/
def badFlowLine (line : List Char) : Bool :=
  match keyMatch line with
  | some (_, r0) =>
    !(trimJs r0).isEmpty && isPfx (chars "[") (trimJs r0) &&
      (jsonParse (normQuotes (trimJs r0))).isNone
  | none => false

/-- The condition of claim C5 as the spec words it: the document begins with
a line that is exactly `---`, and some later line is exactly `---`. -/
def specHasFMBlock (raw : List Char) : Bool :=
  match splitNl raw with
  | first :: rest => first = chars "---" && rest.any (fun l => l = chars "---")
  | [] => false

/-- The condition under which `FM_REGEX` actually matches: the document
starts with `---` and a line break, and the remainder contains a newline
immediately followed by `---`. -/
def fmRegexCond (raw : List Char) : Bool :=
  (isPfx (chars "---\n") raw && hasSubstr (chars "\n---") (raw.drop 4)) ||
  (isPfx (chars "---\r\n") raw && hasSubstr (chars "\n---") (raw.drop 5))

/-- The ordering of claim C4 as the spec words it: `a` may precede `b` when
`a`'s date key is at least `b`'s, with a missing (empty) date counting as
greatest. -/
def specKeyGe (a b : JSValue) : Bool :=
  match a, b with
  | .str x, .str y =>
    if x.isEmpty then true else if y.isEmpty then false else !strLt x y
  | _, _ => true

/-- Whether a file's front matter parses with `draft` bound to `true`. -/
def isDraftFile (f : List Char × List Char) : Bool :=
  match parseFrontMatter f.2 with
  | some (data, _) => isTrueJS (lookupKey (chars "draft") data)
  | none => false

/-- An `<li>` line with the given inner text. -/
def mkLi (x : List Char) : List Char := chars "<li>" ++ x ++ chars "</li>"

/-- A possibly-undefined value that is falsy (so `||` takes its default). -/
def jsFalsyOpt : Option JSValue → Bool
  | none => true
  | some x => !isTruthy x

/-- The rendered post of a file `a.md` whose front matter is only
`date: 2024-01-01` and whose body is `x`. -/
def postJan : Post :=
  { title := .str [], slug := .str (chars "a"), date := .str (chars "2024-01-01"),
    summary := .str [], tags := [], featured := false, content := chars "<p>x</p>" }

/-- The rendered post of a file `b.md` whose front matter is only
`date: 2024-06-01` and whose body is `y`. -/
def postJun : Post :=
  { title := .str [], slug := .str (chars "b"), date := .str (chars "2024-06-01"),
    summary := .str [], tags := [], featured := false, content := chars "<p>y</p>" }

/-- The rendered post of a file `u.md` with no front matter and body `z`. -/
def postUndated : Post :=
  { title := .str [], slug := .str (chars "u"), date := .str [],
    summary := .str [], tags := [], featured := false, content := chars "<p>z</p>" }

/-! ## Claim theorems: concrete evaluations -/

/-- C1 counterexample: on the spec's own end-to-end input, whose front matter
contains `tags: [x, y]`, the flow-array branch hands `[x, y]` to `JSON.parse`,
which rejects it (unquoted identifiers are not JSON), so the parse throws and
no post object is produced at all. -/
theorem c1_tags_flow_array_counterexample :
    parseFrontMatter (chars "---\ntitle: Hello\ndate: 2024-01-01\ntags: [x, y]\n---\n# Hi\n\nSome **bold** text.") = none ∧
    generateJson [(chars "a.md",
        chars "---\ntitle: Hello\ndate: 2024-01-01\ntags: [x, y]\n---\n# Hi\n\nSome **bold** text.")] = none :=
  ⟨rfl, rfl⟩

/-- C1 (corrected): with the tags written as a JSON-compatible flow array
`tags: ["x", "y"]`, processing `a.md` produces exactly the post object of the
claim: title `Hello`, slug `a`, date `2024-01-01`, empty summary, tags
`["x","y"]`, featured `false`, and content
`<h1>Hi</h1>\n<p>Some <strong>bold</strong> text.</p>`. -/
theorem c1_end_to_end_quoted_tags :
    generateJson [(chars "a.md",
        chars "---\ntitle: Hello\ndate: 2024-01-01\ntags: [\"x\", \"y\"]\n---\n# Hi\n\nSome **bold** text.")] =
      some [{ title := .str (chars "Hello"), slug := .str (chars "a"),
              date := .str (chars "2024-01-01"), summary := .str [],
              tags := [.str (chars "x"), .str (chars "y")], featured := false,
              content := chars "<h1>Hi</h1>\n<p>Some <strong>bold</strong> text.</p>" }] :=
  rfl

/-- C6 (confirmed): the flow array `tags: ["a", "b"]` and the block array
`tags:` / `  - a` / `  - b` parse to the same ordered sequence
`["a", "b"]`, and quoted block items (`- "a"`, `- 'b'`) yield the same
elements as unquoted ones. -/
theorem c6_flow_block_round_trip :
    (parseFrontMatter (chars "---\ntags: [\"a\", \"b\"]\n---\nx")).map
        (fun p => lookupKey (chars "tags") p.1) =
      some (some (.arr [.str (chars "a"), .str (chars "b")])) ∧
    (parseFrontMatter (chars "---\ntags:\n  - a\n  - b\n---\nx")).map
        (fun p => lookupKey (chars "tags") p.1) =
      some (some (.arr [.str (chars "a"), .str (chars "b")])) ∧
    (parseFrontMatter (chars "---\ntags:\n  - \"a\"\n  - 'b'\n---\nx")).map
        (fun p => lookupKey (chars "tags") p.1) =
      some (some (.arr [.str (chars "a"), .str (chars "b")])) :=
  ⟨rfl, rfl, rfl⟩

/-- C5 counterexample: `---\nfoo\n---xyz` does not contain any closing line
that is exactly `---`, yet the extractor does not return the input unchanged:
`FM_REGEX` accepts a closing `---` that merely starts a line, and the rest of
that line (`xyz`) becomes the body. -/
theorem c5_closing_line_counterexample :
    specHasFMBlock (chars "---\nfoo\n---xyz") = false ∧
    parseFrontMatter (chars "---\nfoo\n---xyz") = some ([], chars "xyz") ∧
    chars "xyz" ≠ chars "---\nfoo\n---xyz" :=
  ⟨rfl, rfl, by decide⟩

/-- C9 counterexample: for the file `a.mdb.md` (no `slug` in front matter)
the post's slug is `ab.md` — `replace(".md", "")` removes the first
occurrence of `.md`, not the final extension `a.mdb`. -/
theorem c9_slug_counterexample :
    (generateJson [(chars "a.mdb.md", chars "hello")]).map (fun l => l.map Post.slug) =
      some [JSValue.str (chars "ab.md")] ∧
    JSValue.str (chars "ab.md") ≠ JSValue.str (chars "a.mdb") :=
  ⟨rfl, by intro h; injection h with h2; exact absurd h2 (by decide)⟩

/-- C10 counterexample: with front matter `title: true` the parsed value is
the boolean `true`, which is truthy, so the post's `title` field is the
boolean `true` — not a string. -/
theorem c10_title_not_string_counterexample :
    (generateJson [(chars "t.md", chars "---\ntitle: true\n---\nx")]).map
        (fun l => l.map Post.title) = some [JSValue.bool true] ∧
    (JSValue.bool true).isStr = false :=
  ⟨rfl, rfl⟩

/-- C4 counterexample: in the three-post example the output order is the
2024-06-01 post, the 2024-01-01 post, then the undated post — so the list is
not ordered descending with missing dates counting as greatest (that would
require the undated post to come first). -/
theorem c4_missing_greatest_counterexample :
    generateJson [(chars "a.md", chars "---\ndate: 2024-01-01\n---\nx"),
                  (chars "b.md", chars "---\ndate: 2024-06-01\n---\ny"),
                  (chars "u.md", chars "z")] =
      some [postJun, postJan, postUndated] ∧
    ¬ List.Pairwise (fun p q => specKeyGe p.date q.date = true)
        [postJun, postJan, postUndated] :=
  ⟨rfl, by
    intro h
    have h2 := (List.pairwise_cons.mp (List.pairwise_cons.mp h).2).1
    have h3 := h2 postUndated (by simp)
    exact absurd h3 (by decide)⟩

/-! ## Scanner lemmas -/

/-- A line matching the key pattern starts with a `\w` character, hence not
with whitespace, so it can never be consumed as a block-array item. -/
theorem blockItem_of_keyMatch (l : List Char) (p : List Char × List Char)
    (h : keyMatch l = some p) : blockItem l = none := by
  match l with
  | [] => simp [keyMatch] at h
  | c :: rest =>
    by_cases hw : isW c = true
    · have hws : isJsWs c = false := by
        revert hw
        simp only [isW, isJsWs, Bool.or_eq_true, Bool.and_eq_true, decide_eq_true_eq]
        intro hw
        simp only [Bool.or_eq_false_iff, Bool.and_eq_false_iff, decide_eq_false_iff_not]
        omega
      simp [blockItem, List.takeWhile, hws]
    · simp [keyMatch, hw] at h

/-- Lines left unconsumed by the block-array loop are among the input lines. -/
theorem takeBlockItems_rest_mem (ls : List (List Char)) (l : List Char)
    (h : l ∈ (takeBlockItems ls).2) : l ∈ ls := by
  induction ls with
  | nil => simp [takeBlockItems] at h
  | cons x ls ih =>
    by_cases hx : ∃ item, blockItem x = some item
    · obtain ⟨item, hitem⟩ := hx
      simp only [takeBlockItems, hitem] at h
      exact List.mem_cons_of_mem x (ih h)
    · have hnone : blockItem x = none := by
        cases hbi : blockItem x with
        | none => rfl
        | some item => exact absurd ⟨item, hbi⟩ hx
      simpa [takeBlockItems, hnone] using h

/-- A line that is not a block-array item is never consumed by the
block-array loop: it is still among the unconsumed lines. -/
theorem mem_rest_of_not_item (ls : List (List Char)) (l : List Char)
    (hmem : l ∈ ls) (hni : blockItem l = none) : l ∈ (takeBlockItems ls).2 := by
  induction ls with
  | nil => simp at hmem
  | cons x ls ih =>
    cases hbi : blockItem x with
    | some item =>
      rcases List.mem_cons.mp hmem with hEq | hmem2
      · subst hEq; rw [hbi] at hni; simp at hni
      · simp only [takeBlockItems, hbi]
        exact ih hmem2
    | none =>
      simp only [takeBlockItems, hbi]
      exact hmem

/-- If any line of the block is a malformed flow-array line, the scanner
fails: such a line is always reached (it cannot be swallowed as a block
item), and reaching it raises from `JSON.parse`. -/
theorem parseLinesF_badFlow :
    ∀ (fuel : Nat) (ls : List (List Char)) (acc : List (List Char × JSValue)),
    (∃ l ∈ ls, badFlowLine l = true) → parseLinesF fuel ls acc = none := by
  intro fuel
  induction fuel with
  | zero =>
    intro ls acc h
    match ls with
    | [] => obtain ⟨l, hl, _⟩ := h; simp at hl
    | _ :: _ => rfl
  | succ f ih =>
    intro ls acc h
    match ls with
    | [] => obtain ⟨l, hl, _⟩ := h; simp at hl
    | l :: ls2 =>
      obtain ⟨l0, hl0, hbad⟩ := h
      cases hk : keyMatch l with
      | none =>
        have hne : l0 ≠ l := by
          intro hEq; subst hEq
          simp [badFlowLine, hk] at hbad
        have hl02 : l0 ∈ ls2 := by
          rcases List.mem_cons.mp hl0 with hEq | h2
          · exact absurd hEq hne
          · exact h2
        simp only [parseLinesF, hk]
        exact ih ls2 acc ⟨l0, hl02, hbad⟩
      | some kv =>
        obtain ⟨k, r0⟩ := kv
        simp only [parseLinesF, hk]
        by_cases he : (trimJs r0).isEmpty
        · have hne : l0 ≠ l := by
            intro hEq; subst hEq
            simp [badFlowLine, hk, he] at hbad
          have hl02 : l0 ∈ ls2 := by
            rcases List.mem_cons.mp hl0 with hEq | h2
            · exact absurd hEq hne
            · exact h2
          have hitem : blockItem l0 = none := by
            cases hk0 : keyMatch l0 with
            | none => simp [badFlowLine, hk0] at hbad
            | some p0 => exact blockItem_of_keyMatch l0 p0 hk0
          simp only [he, if_true]
          exact ih _ _ ⟨l0, mem_rest_of_not_item ls2 l0 hl02 hitem, hbad⟩
        · by_cases hp : isPfx (chars "[") (trimJs r0) = true
          · cases hj : jsonParse (normQuotes (trimJs r0)) with
            | none => simp [he, hp, hj]
            | some v =>
              have hne : l0 ≠ l := by
                intro hEq; subst hEq
                simp [badFlowLine, hk, he, hp, hj, Option.isNone] at hbad
              have hl02 : l0 ∈ ls2 := by
                rcases List.mem_cons.mp hl0 with hEq | h2
                · exact absurd hEq hne
                · exact h2
              simp only [he, hp, hj, if_false, if_true, Bool.false_eq_true]
              exact ih ls2 _ ⟨l0, hl02, hbad⟩
          · have hne : l0 ≠ l := by
              intro hEq; subst hEq
              simp [badFlowLine, hk, he, hp] at hbad
            have hl02 : l0 ∈ ls2 := by
              rcases List.mem_cons.mp hl0 with hEq | h2
              · exact absurd hEq hne
              · exact h2
            simp only [he, hp, Bool.false_eq_true, if_false]
            split
            · exact ih ls2 _ ⟨l0, hl02, hbad⟩
            · split
              · exact ih ls2 _ ⟨l0, hl02, hbad⟩
              · split
                · exact ih ls2 _ ⟨l0, hl02, hbad⟩
                · exact ih ls2 _ ⟨l0, hl02, hbad⟩

/-- C2 (confirmed): for every front-matter `key: value` line whose value
starts with `[` but, after replacing single quotes by double quotes, is not
a valid JSON literal, the front-matter parse of that document fails (the
`JSON.parse` exception propagates) instead of recovering or skipping the
line. -/
theorem c2_malformed_flow_array_fails :
    ∀ raw block content, fmSplit raw = some (block, content) →
    ∀ line ∈ splitNl block, badFlowLine line = true →
    parseFrontMatter raw = none := by
  intro raw block content hsplit line hline hbad
  unfold parseFrontMatter
  rw [hsplit]
  simp only [parseLinesF_badFlow (splitNl block).length (splitNl block) [] ⟨line, hline, hbad⟩]

/-- Witness for C2 at the spec's own example `tags: [unparseable`. -/
theorem c2_malformed_flow_array_fails_witness :
    parseFrontMatter (chars "---\ntags: [unparseable\n---\nbody") = none :=
  c2_malformed_flow_array_fails (chars "---\ntags: [unparseable\n---\nbody")
    (chars "tags: [unparseable") (chars "body") rfl
    (chars "tags: [unparseable") (by decide) rfl

/-- Storing under a different key leaves a lookup unchanged (also when the
store was the `__proto__` no-op). -/
theorem lookupKey_setKey_ne (acc : List (List Char × JSValue)) (k2 k : List Char)
    (v : JSValue) (h : k2 ≠ k) :
    lookupKey k (setKey acc k2 v) = lookupKey k acc := by
  unfold setKey
  by_cases hp : k2 = chars "__proto__"
  · simp [hp]
  · simp [hp, lookupKey, h]

/-- Storing under a key other than `__proto__` makes it readable. -/
theorem lookupKey_setKey_self (acc : List (List Char × JSValue)) (k : List Char)
    (v : JSValue) (h : k ≠ chars "__proto__") :
    lookupKey k (setKey acc k v) = some v := by
  simp [setKey, h, lookupKey]

/-- If no remaining line's key pattern binds `k`, scanning leaves the
binding of `k` unchanged. -/
theorem parseLinesF_lookup_noassign :
    ∀ (fuel : Nat) (ls : List (List Char)) (acc data : List (List Char × JSValue)) (k : List Char),
    parseLinesF fuel ls acc = some data →
    (∀ l ∈ ls, ∀ k2 r2, keyMatch l = some (k2, r2) → k2 ≠ k) →
    lookupKey k data = lookupKey k acc := by
  intro fuel
  induction fuel with
  | zero =>
    intro ls acc data k hrun hna
    match ls with
    | [] => simp only [parseLinesF] at hrun; cases hrun; rfl
    | _ :: _ => simp [parseLinesF] at hrun
  | succ f ih =>
    intro ls acc data k hrun hna
    match ls with
    | [] => simp only [parseLinesF] at hrun; cases hrun; rfl
    | l :: ls2 =>
      have hna2 : ∀ l2 ∈ ls2, ∀ k2 r2, keyMatch l2 = some (k2, r2) → k2 ≠ k :=
        fun l2 h2 => hna l2 (List.mem_cons_of_mem l h2)
      cases hk : keyMatch l with
      | none =>
        simp only [parseLinesF, hk] at hrun
        exact ih ls2 acc data k hrun hna2
      | some kv =>
        obtain ⟨k2, r0⟩ := kv
        have hk2 : k2 ≠ k := hna l (List.mem_cons_self l ls2) k2 r0 hk
        simp only [parseLinesF, hk] at hrun
        by_cases he : (trimJs r0).isEmpty
        · simp only [he, if_true] at hrun
          have hmem : ∀ l2 ∈ (takeBlockItems ls2).2, ∀ k3 r3, keyMatch l2 = some (k3, r3) → k3 ≠ k :=
            fun l2 h2 => hna2 l2 (takeBlockItems_rest_mem ls2 l2 h2)
          rw [ih _ _ data k hrun hmem]
          exact lookupKey_setKey_ne _ _ _ _ hk2
        · by_cases hp : isPfx (chars "[") (trimJs r0) = true
          · cases hj : jsonParse (normQuotes (trimJs r0)) with
            | none => simp [he, hp, hj] at hrun
            | some v =>
              simp only [he, hp, hj, Bool.false_eq_true, if_false, if_true] at hrun
              rw [ih ls2 _ data k hrun hna2]
              exact lookupKey_setKey_ne _ _ _ _ hk2
          · simp only [he, hp, Bool.false_eq_true, if_false] at hrun
            split at hrun
            · rw [ih ls2 _ data k hrun hna2]; exact lookupKey_setKey_ne _ _ _ _ hk2
            · split at hrun
              · rw [ih ls2 _ data k hrun hna2]; exact lookupKey_setKey_ne _ _ _ _ hk2
              · split at hrun
                · rw [ih ls2 _ data k hrun hna2]; exact lookupKey_setKey_ne _ _ _ _ hk2
                · rw [ih ls2 _ data k hrun hna2]; exact lookupKey_setKey_ne _ _ _ _ hk2

/-- The block-array loop never consumes a non-item line: the unconsumed
lines keep the suffix starting at that line. -/
theorem takeBlockItems_keeps_suffix :
    ∀ (a : List (List Char)) (x : List Char) (b : List (List Char)),
    blockItem x = none →
    ∃ a2, (takeBlockItems (a ++ x :: b)).2 = a2 ++ x :: b := by
  intro a
  induction a with
  | nil =>
    intro x b hx
    refine ⟨[], ?_⟩
    simp [takeBlockItems, hx]
  | cons y a2 ih =>
    intro x b hx
    cases hy : blockItem y with
    | some item =>
      obtain ⟨a3, ha3⟩ := ih x b hx
      refine ⟨a3, ?_⟩
      simp only [List.cons_append, takeBlockItems, hy]
      exact ha3
    | none =>
      exact ⟨y :: a2, by simp [takeBlockItems, hy]⟩

/-- When the scanner reaches a `key: value` line routed to the string branch
and no later line assigns the same key, the final data binds the key to the
trimmed value with its surrounding quotes stripped. -/
theorem parseLinesF_lastKey :
    ∀ (fuel : Nat) (pre post : List (List Char)) (line k r0 : List Char)
      (acc data : List (List Char × JSValue)),
    keyMatch line = some (k, r0) →
    k ≠ chars "__proto__" →
    (trimJs r0).isEmpty = false →
    isPfx (chars "[") (trimJs r0) = false →
    trimJs r0 ≠ chars "true" →
    trimJs r0 ≠ chars "false" →
    isDateStr (trimJs r0) = false →
    (∀ l ∈ post, ∀ k2 r2, keyMatch l = some (k2, r2) → k2 ≠ k) →
    parseLinesF fuel (pre ++ line :: post) acc = some data →
    lookupKey k data = some (.str (stripQuotes (trimJs r0))) := by
  intro fuel
  induction fuel with
  | zero =>
    intro pre post line k r0 acc data _ _ _ _ _ _ _ _ hrun
    cases pre <;> simp [parseLinesF] at hrun
  | succ f ih =>
    intro pre post line k r0 acc data hkm hproto he hp ht hf hd hna hrun
    cases pre with
    | nil =>
      simp only [List.nil_append, parseLinesF, hkm] at hrun
      simp only [he, Bool.false_eq_true, if_false, hp] at hrun
      rw [if_neg ht, if_neg hf] at hrun
      simp only [hd, Bool.false_eq_true, if_false] at hrun
      rw [parseLinesF_lookup_noassign f post _ data k hrun hna]
      exact lookupKey_setKey_self _ _ _ hproto
    | cons p pre2 =>
      simp only [List.cons_append, parseLinesF] at hrun
      cases hk : keyMatch p with
      | none =>
        rw [hk] at hrun
        exact ih pre2 post line k r0 acc data hkm hproto he hp ht hf hd hna hrun
      | some kv =>
        obtain ⟨kp, rp⟩ := kv
        rw [hk] at hrun
        by_cases hemp : (trimJs rp).isEmpty
        · simp only [hemp, if_true] at hrun
          obtain ⟨a2, ha2⟩ :=
            takeBlockItems_keeps_suffix pre2 line post
              (blockItem_of_keyMatch line (k, r0) hkm)
          simp only [List.append_eq] at hrun
          rw [ha2] at hrun
          exact ih a2 post line k r0 _ data hkm hproto he hp ht hf hd hna hrun
        · by_cases hpp : isPfx (chars "[") (trimJs rp) = true
          · cases hj : jsonParse (normQuotes (trimJs rp)) with
            | none => simp [hemp, hpp, hj] at hrun
            | some v =>
              simp only [hemp, hpp, hj, Bool.false_eq_true, if_false, if_true] at hrun
              exact ih pre2 post line k r0 _ data hkm hproto he hp ht hf hd hna hrun
          · simp only [hemp, hpp, Bool.false_eq_true, if_false] at hrun
            split at hrun
            · exact ih pre2 post line k r0 _ data hkm hproto he hp ht hf hd hna hrun
            · split at hrun
              · exact ih pre2 post line k r0 _ data hkm hproto he hp ht hf hd hna hrun
              · split at hrun
                · exact ih pre2 post line k r0 _ data hkm hproto he hp ht hf hd hna hrun
                · exact ih pre2 post line k r0 _ data hkm hproto he hp ht hf hd hna hrun

/-- C3 (corrected): a `key: value` line whose trimmed value is non-empty,
does not start with `[`, is not `true`/`false` and is not a date is stored
as the value with one leading quote (if any) and one trailing quote (if any)
removed, independently — the quotes need not match, so an unmatched quote is
stripped rather than left as-is: `"abc` stores `abc` and `"abc'` stores
`abc`, while quote-free values are unchanged.  The one exceptional key is
`__proto__`, whose assignment reaches the inherited accessor and stores
nothing (final conjunct). -/
theorem c3_quote_stripping :
    (∀ raw block content pre post line k r0 data body,
      fmSplit raw = some (block, content) →
      splitNl block = pre ++ line :: post →
      keyMatch line = some (k, r0) →
      k ≠ chars "__proto__" →
      (trimJs r0).isEmpty = false →
      isPfx (chars "[") (trimJs r0) = false →
      trimJs r0 ≠ chars "true" →
      trimJs r0 ≠ chars "false" →
      isDateStr (trimJs r0) = false →
      (∀ l ∈ post, ∀ k2 r2, keyMatch l = some (k2, r2) → k2 ≠ k) →
      parseFrontMatter raw = some (data, body) →
      lookupKey k data = some (.str (stripQuotes (trimJs r0)))) ∧
    stripQuotes (chars "\"abc") = chars "abc" ∧
    stripQuotes (chars "\"abc'") = chars "abc" ∧
    stripQuotes (chars "\"abc\"") = chars "abc" ∧
    stripQuotes (chars "abc") = chars "abc" ∧
    (parseFrontMatter (chars "---\n__proto__: \"abc\n---\nx")).map (fun p => p.1) =
      some [] := by
  refine ⟨?_, rfl, rfl, rfl, rfl, rfl⟩
  intro raw block content pre post line k r0 data body hsplit hlines hkm hproto he hp ht hf hd hna hpf
  simp only [parseFrontMatter, hsplit] at hpf
  cases hrun : parseLinesF (splitNl block).length (splitNl block) [] with
  | none => rw [hrun] at hpf; cases hpf
  | some data2 =>
    rw [hrun] at hpf
    simp only [Option.some.injEq, Prod.mk.injEq] at hpf
    obtain ⟨hdata, _⟩ := hpf
    subst hdata
    rw [hlines] at hrun
    exact parseLinesF_lastKey (pre ++ line :: post).length pre post line k r0 [] data2
      hkm hproto he hp ht hf hd hna hrun

/-- Witness for C3 at the line `title: hello` (quote-free value). -/
theorem c3_quote_stripping_witness :
    lookupKey (chars "title") [(chars "title", JSValue.str (chars "hello"))] =
      some (.str (stripQuotes (trimJs (chars "hello")))) :=
  c3_quote_stripping.1 (chars "---\ntitle: hello\n---\nx") (chars "title: hello")
    (chars "x") [] [] (chars "title: hello") (chars "title") (chars "hello")
    [(chars "title", JSValue.str (chars "hello"))] (chars "x")
    rfl rfl rfl (by decide) rfl rfl (by decide) (by decide) rfl
    (by intro l hl; simp at hl) rfl

/-- If the text contains no newline followed by `---`, the non-greedy search
for the closing delimiter fails. -/
theorem findClose_none_of_no_substr :
    ∀ s, hasSubstr (chars "\n---") s = false → findClose s = none := by
  intro s
  induction s with
  | nil => intro _; rfl
  | cons c rest ih =>
    intro h
    have h2 : isPfx (chars "\n---") (c :: rest) = false ∧ hasSubstr (chars "\n---") rest = false := by
      simpa [hasSubstr, Bool.or_eq_false_iff] using h
    have h5 : isPfx (chars "\r\n---") (c :: rest) = false := by
      cases hcr : isPfx (chars "\r\n---") (c :: rest) with
      | false => rfl
      | true =>
        have : isPfx (chars "\n---") rest = true := by
          have := hcr
          simp only [chars, isPfx, Bool.and_eq_true] at this
          simpa [chars, isPfx] using this.2
        have h6 : hasSubstr (chars "\n---") rest = true := by
          cases rest with
          | nil => simp [chars, isPfx] at this
          | cons d r2 => simp [hasSubstr, this]
        rw [h6] at h2
        exact absurd h2.2 (by simp)
    simp only [findClose, h5, h2.1, Bool.false_eq_true, if_false]
    rw [ih h2.2]
    rfl

/-- C5 (corrected): whenever `FM_REGEX` does not match — the document does
not start with `---` plus a line break, or no newline followed by `---`
occurs afterwards — the extractor returns empty metadata and the body is the
whole input unchanged.  (The regex only requires the closing `---` to start
a line, not to be a whole line, which is why the claim's wording fails; see
the counterexample.) -/
theorem c5_regex_no_match_identity :
    ∀ raw, fmRegexCond raw = false → parseFrontMatter raw = some ([], raw) := by
  intro raw h
  have h2 : fmSplit raw = none := by
    unfold fmSplit
    by_cases h5 : isPfx (chars "---\r\n") raw = true
    · have hsub : hasSubstr (chars "\n---") (raw.drop 5) = false := by
        simp only [fmRegexCond, h5, Bool.true_and, Bool.or_eq_false_iff] at h
        exact h.2
      simp [h5, findClose_none_of_no_substr _ hsub]
    · by_cases h4 : isPfx (chars "---\n") raw = true
      · have hsub : hasSubstr (chars "\n---") (raw.drop 4) = false := by
          simp only [fmRegexCond, h4, Bool.true_and, Bool.or_eq_false_iff] at h
          exact h.1
        simp [h5, h4, findClose_none_of_no_substr _ hsub]
      · simp [h5, h4]
  simp [parseFrontMatter, h2]

/-- Witness for C5 on a document with no front matter at all. -/
theorem c5_regex_no_match_identity_witness :
    parseFrontMatter (chars "hello") = some ([], chars "hello") :=
  c5_regex_no_match_identity (chars "hello") rfl

/-! ## List-wrapping lemmas -/

/-- A list is a prefix of itself followed by anything. -/
theorem isPfx_append_self : ∀ (p t : List Char), isPfx p (p ++ t) = true := by
  intro p
  induction p with
  | nil => intro t; rfl
  | cons c p2 ih => intro t; simp [isPfx, ih]

/-- `takeWhile` walks through a prefix all of whose elements satisfy the
predicate. -/
theorem takeWhile_append_of_all (P : Char → Bool) :
    ∀ (a b : List Char), (∀ x ∈ a, P x = true) →
    (a ++ b).takeWhile P = a ++ b.takeWhile P := by
  intro a
  induction a with
  | nil => intro b _; rfl
  | cons c a2 ih =>
    intro b h
    have hc : P c = true := h c (List.mem_cons_self c a2)
    simp only [List.cons_append, List.takeWhile_cons, hc, if_true]
    rw [ih b (fun x hx => h x (List.mem_cons_of_mem c hx))]

/-- `dropWhile` walks through a prefix all of whose elements satisfy the
predicate. -/
theorem dropWhile_append_of_all (P : Char → Bool) :
    ∀ (a b : List Char), (∀ x ∈ a, P x = true) →
    (a ++ b).dropWhile P = b.dropWhile P := by
  intro a
  induction a with
  | nil => intro b _; rfl
  | cons c a2 ih =>
    intro b h
    have hc : P c = true := h c (List.mem_cons_self c a2)
    simp only [List.cons_append, List.dropWhile_cons, hc, if_true]
    exact ih b (fun x hx => h x (List.mem_cons_of_mem c hx))

/-- A text without `<` contains no `</li>`. -/
theorem splitLastCloseLi_none :
    ∀ s, (∀ c ∈ s, c ≠ '<') → splitLastCloseLi s = none := by
  intro s
  induction s with
  | nil => intro _; rfl
  | cons c rest ih =>
    intro h
    have hc : c ≠ '<' := h c (List.mem_cons_self c rest)
    have hpf : isPfx (chars "</li>") (c :: rest) = false := by
      simp only [chars, isPfx, Bool.and_eq_false_iff]
      left
      simp only [decide_eq_false_iff_not]
      exact fun hEq => hc hEq.symm
    rw [splitLastCloseLi, ih (fun x hx => h x (List.mem_cons_of_mem c hx))]
    simp [hpf]

/-- Splitting `x ++ "</li>"` at the last `</li>` yields `(x, [])` when `x`
contains no `<`. -/
theorem splitLastCloseLi_exact :
    ∀ x, (∀ c ∈ x, c ≠ '<') → splitLastCloseLi (x ++ chars "</li>") = some (x, []) := by
  intro x
  induction x with
  | nil =>
    intro _
    have h1 : splitLastCloseLi (chars "/li>") = none := by
      apply splitLastCloseLi_none
      decide
    simp only [List.nil_append]
    rw [show chars "</li>" = '<' :: chars "/li>" from rfl, splitLastCloseLi, h1]
    simp [isPfx, chars]
  | cons c x2 ih =>
    intro h
    have h2 := ih (fun d hd => h d (List.mem_cons_of_mem c hd))
    simp only [List.cons_append, splitLastCloseLi, List.append_eq, h2]

/-- Dropping the four characters of `<li>` from a prefixed text. -/
theorem drop_four_li (t : List Char) :
    (chars "<li>" ++ t).drop 4 = t := by
  rw [show (4 : Nat) = (chars "<li>").length from rfl]
  exact List.drop_left _ _

/-- An `<li>` line (clean inner text) at the end of the text is one unit with
no trailing newline. -/
theorem liUnit_mkLi_nil (x : List Char)
    (h : ∀ c ∈ x, isLineTerm c = false ∧ c ≠ '<') :
    liUnit (mkLi x) = some (mkLi x, []) := by
  have hx : ∀ c ∈ x, (!isLineTerm c) = true := fun c hc => by rw [(h c hc).1]; rfl
  have hs : mkLi x = chars "<li>" ++ (x ++ chars "</li>") := by simp [mkLi]
  rw [hs]
  have htw : (x ++ chars "</li>").takeWhile (fun c => !isLineTerm c) = x ++ chars "</li>" := by
    rw [takeWhile_append_of_all _ x _ hx]
    congr 1
  have hdw : (x ++ chars "</li>").dropWhile (fun c => !isLineTerm c) = [] := by
    rw [dropWhile_append_of_all _ x _ hx]
    rfl
  simp only [liUnit, isPfx_append_self, if_true, drop_four_li, htw, hdw,
    splitLastCloseLi_exact x (fun c hc => (h c hc).2)]
  simp [mkLi]

/-- An `<li>` line (clean inner text) followed by a newline and further text
is one unit including the newline. -/
theorem liUnit_mkLi_cons (x r : List Char)
    (h : ∀ c ∈ x, isLineTerm c = false ∧ c ≠ '<') :
    liUnit (mkLi x ++ '\n' :: r) = some (mkLi x ++ ['\n'], r) := by
  have hx : ∀ c ∈ x, (!isLineTerm c) = true := fun c hc => by rw [(h c hc).1]; rfl
  have hs : mkLi x ++ '\n' :: r = chars "<li>" ++ (x ++ (chars "</li>" ++ '\n' :: r)) := by
    simp [mkLi]
  rw [hs]
  have htw : (x ++ (chars "</li>" ++ '\n' :: r)).takeWhile (fun c => !isLineTerm c) =
      x ++ chars "</li>" := by
    rw [takeWhile_append_of_all _ x _ hx,
      takeWhile_append_of_all _ (chars "</li>") _ (by decide)]
    simp [List.takeWhile_cons, isLineTerm, cn]
  have hdw : (x ++ (chars "</li>" ++ '\n' :: r)).dropWhile (fun c => !isLineTerm c) =
      '\n' :: r := by
    rw [dropWhile_append_of_all _ x _ hx,
      dropWhile_append_of_all _ (chars "</li>") _ (by decide)]
    simp [List.dropWhile_cons, isLineTerm, cn]
  simp only [liUnit, isPfx_append_self, if_true, drop_four_li, htw, hdw,
    splitLastCloseLi_exact x (fun c hc => (h c hc).2)]
  simp [mkLi]

/-- No unit matches at the empty string. -/
theorem liRunF_nil : ∀ f, liRunF f [] = none := by
  intro f
  cases f with
  | zero => rfl
  | succ f2 => rfl

/-- On a pure run of clean `<li>` lines joined by single newlines, the
greedy repetition consumes exactly the whole text. -/
theorem liRunF_join :
    ∀ (xs : List (List Char)) (fuel : Nat), xs ≠ [] →
    (∀ x ∈ xs, ∀ c ∈ x, isLineTerm c = false ∧ c ≠ '<') →
    xs.length ≤ fuel →
    liRunF fuel (joinNl (xs.map mkLi)) = some (joinNl (xs.map mkLi), []) := by
  intro xs
  induction xs with
  | nil => intro fuel hne _ _; exact absurd rfl hne
  | cons x xs2 ih =>
    intro fuel hne hcl hlen
    match fuel, hlen with
    | Nat.succ f, hlen =>
      have hx : ∀ c ∈ x, isLineTerm c = false ∧ c ≠ '<' :=
        hcl x (List.mem_cons_self x xs2)
      match xs2 with
      | [] =>
        simp only [List.map, joinNl, liRunF, liUnit_mkLi_nil x hx, liRunF_nil]
      | x2 :: xs3 =>
        have hjoin : joinNl ((x :: x2 :: xs3).map mkLi) =
            mkLi x ++ '\n' :: joinNl ((x2 :: xs3).map mkLi) := by
          simp [List.map, joinNl]
        rw [hjoin]
        have hrec := ih f (by simp) (fun y hy => hcl y (List.mem_cons_of_mem x hy))
          (by simpa using Nat.succ_le_succ_iff.mp hlen)
        simp only [liRunF, liUnit_mkLi_cons x _ hx, hrec]
        simp

/-- The global replace of the empty string is empty. -/
theorem gsubF_nil (step : List Char → Option (List Char × List Char)) :
    ∀ f, gsubF step f [] = [] := by
  intro f
  cases f with
  | zero => rfl
  | succ f2 => rfl

/-- A step matching the whole remaining text makes the global replace emit
just its replacement. -/
theorem gsub_whole (step : List Char → Option (List Char × List Char))
    (s r : List Char) (hne : s ≠ []) (hstep : step s = some (r, [])) :
    gsub step s = r := by
  match s, hne with
  | c :: t, _ =>
    show gsubF step (c :: t).length (c :: t) = r
    have hlen : (c :: t).length = t.length + 1 := by simp
    rw [hlen]
    simp only [gsubF, hstep, gsubF_nil]
    simp

/-- A nonempty run of `<li>` lines is a nonempty text. -/
theorem joinLi_ne_nil : ∀ xs : List (List Char), xs ≠ [] → joinNl (xs.map mkLi) ≠ [] := by
  intro xs hne
  match xs with
  | x :: xs2 =>
    cases xs2 with
    | nil => simp [joinNl, mkLi, chars]
    | cons y ys => simp [joinNl, List.map, mkLi, chars]

/-- A run of `n` `<li>` lines has at least `n` characters. -/
theorem joinLi_length_ge : ∀ xs : List (List Char), xs.length ≤ (joinNl (xs.map mkLi)).length := by
  intro xs
  induction xs with
  | nil => simp [joinNl]
  | cons x xs2 ih =>
    cases xs2 with
    | nil => simp [joinNl, mkLi, chars]
    | cons y ys =>
      have hstep : joinNl ((x :: y :: ys).map mkLi) =
          mkLi x ++ '\n' :: joinNl ((y :: ys).map mkLi) := by
        simp [List.map, joinNl]
      rw [hstep]
      simp only [List.length_append, List.length_cons] at *
      have hm : (mkLi x).length = x.length + 9 := by
        simp [mkLi, chars]
      omega

/-- C8 (confirmed): the post-pass wraps a whole run of consecutive `<li>`
lines (single line breaks between them) in exactly one `<ul> ... </ul>`; in
particular two consecutive `- item` lines render to a single `<ul>`
containing both `<li>` elements. -/
theorem c8_li_runs_single_ul :
    (∀ xs : List (List Char), xs ≠ [] →
      (∀ x ∈ xs, ∀ c ∈ x, isLineTerm c = false ∧ c ≠ '<') →
      gsub liWrapStep (joinNl (xs.map mkLi)) =
        chars "<ul>" ++ joinNl (xs.map mkLi) ++ chars "</ul>") ∧
    markdownToHtml (chars "- a\n- b") = chars "<ul><li>a</li>\n<li>b</li></ul>" := by
  constructor
  · intro xs hne hcl
    have hrun := liRunF_join xs (joinNl (xs.map mkLi)).length hne hcl (joinLi_length_ge xs)
    have hstep : liWrapStep (joinNl (xs.map mkLi)) =
        some (chars "<ul>" ++ joinNl (xs.map mkLi) ++ chars "</ul>", []) := by
      simp [liWrapStep, hrun]
    exact gsub_whole _ _ _ (joinLi_ne_nil xs hne) hstep
  · rfl

/-- Witness for C8 on the two-item run of the claim. -/
theorem c8_li_runs_single_ul_witness :
    gsub liWrapStep (joinNl ([chars "a", chars "b"].map mkLi)) =
      chars "<ul>" ++ joinNl ([chars "a", chars "b"].map mkLi) ++ chars "</ul>" :=
  c8_li_runs_single_ul.1 [chars "a", chars "b"] (by decide) (by decide)

/-! ## Pipeline lemmas -/

/-- Membership in an insertion. -/
theorem mem_insertPost : ∀ (p : Post) (l : List Post) (x : Post),
    x ∈ insertPost p l ↔ x = p ∨ x ∈ l := by
  intro p l
  induction l with
  | nil => intro x; simp [insertPost]
  | cons q qs ih =>
    intro x
    cases h : jsLt p.date q.date with
    | true =>
      simp only [insertPost, h, if_true, List.mem_cons, ih]
      tauto
    | false =>
      simp only [insertPost, h, Bool.false_eq_true, if_false, List.mem_cons]

/-- Insertion adds one element. -/
theorem length_insertPost : ∀ (p : Post) (l : List Post),
    (insertPost p l).length = l.length + 1 := by
  intro p l
  induction l with
  | nil => rfl
  | cons q qs ih =>
    by_cases h : jsLt p.date q.date = true
    · simp [insertPost, h, ih]
    · simp [insertPost, h]

/-- Sorting permutes membership. -/
theorem mem_sortPosts : ∀ (l : List Post) (x : Post), x ∈ sortPosts l ↔ x ∈ l := by
  intro l
  induction l with
  | nil => intro x; simp [sortPosts]
  | cons p l2 ih =>
    intro x
    have hstep : sortPosts (p :: l2) = insertPost p (sortPosts l2) := rfl
    rw [hstep, mem_insertPost]
    simp [ih]

/-- Sorting preserves length. -/
theorem length_sortPosts : ∀ l : List Post, (sortPosts l).length = l.length := by
  intro l
  induction l with
  | nil => rfl
  | cons p l2 ih =>
    have hstep : sortPosts (p :: l2) = insertPost p (sortPosts l2) := rfl
    rw [hstep, length_insertPost, ih]
    rfl

/-- A processed file is skipped exactly when its parsed `draft` is `true`. -/
theorem isDraftFile_iff (n raw : List Char) (r : Option Post)
    (h : processFile n raw = some r) :
    (isDraftFile (n, raw) = true ↔ r = none) := by
  unfold processFile at h
  cases hparse : parseFrontMatter raw with
  | none => rw [hparse] at h; cases h
  | some dc =>
    obtain ⟨data, content⟩ := dc
    rw [hparse] at h
    unfold isDraftFile
    rw [hparse]
    by_cases hd : isTrueJS (lookupKey (chars "draft") data) = true
    · simp only [hd, if_true, Option.some.injEq] at h
      simp [hd, ← h]
    · simp only [hd, Bool.false_eq_true, if_false, Option.some.injEq] at h
      simp only [Bool.not_eq_true] at hd
      simp [hd, ← h]

/-- The fields of a rendered (non-skipped) post, in terms of the parsed
metadata. -/
theorem processFile_fields (n raw : List Char) (p : Post)
    (h : processFile n raw = some (some p)) :
    ∃ data content, parseFrontMatter raw = some (data, content) ∧
      p.title = jsOr (lookupKey (chars "title") data) (.str []) ∧
      p.slug = jsOr (lookupKey (chars "slug") data) (.str (replaceFirst (chars ".md") n)) ∧
      p.date = jsOr (lookupKey (chars "date") data) (.str []) ∧
      p.summary = jsOr (lookupKey (chars "summary") data) (.str []) := by
  unfold processFile at h
  cases hparse : parseFrontMatter raw with
  | none => rw [hparse] at h; cases h
  | some dc =>
    obtain ⟨data, content⟩ := dc
    rw [hparse] at h
    by_cases hd : isTrueJS (lookupKey (chars "draft") data) = true
    · simp [hd] at h
    · simp only [hd, Bool.false_eq_true, if_false, Option.some.injEq] at h
      refine ⟨data, content, rfl, ?_, ?_, ?_, ?_⟩ <;> rw [← h]

/-- Rendered posts count: drafts contribute zero, all other files exactly
one. -/
theorem mapPosts_length : ∀ (fs : List (List Char × List Char)) (rs : List (Option Post)),
    mapPosts fs = some rs →
    (rs.filterMap id).length = (fs.filter (fun f => !isDraftFile f)).length := by
  intro fs
  induction fs with
  | nil =>
    intro rs h
    cases h
    rfl
  | cons f fs2 ih =>
    intro rs h
    unfold mapPosts at h
    cases hpf : processFile f.1 f.2 with
    | none => rw [hpf] at h; cases h
    | some r =>
      rw [hpf] at h
      cases hmp : mapPosts fs2 with
      | none => rw [hmp] at h; cases h
      | some rs2 =>
        rw [hmp] at h
        simp only [Option.map_some', Option.some.injEq] at h
        subst h
        have hdr := isDraftFile_iff f.1 f.2 r (by rw [hpf])
        cases r with
        | none =>
          have hd : isDraftFile f = true := hdr.mpr rfl
          simp only [List.filterMap_cons, id]
          rw [List.filter_cons]
          simp [hd, ih rs2 hmp]
        | some p =>
          have hd : isDraftFile f = false := by
            cases hv : isDraftFile f with
            | false => rfl
            | true => exact absurd (hdr.mp hv) (by simp)
          simp only [List.filterMap_cons, id]
          rw [List.filter_cons]
          simp [hd, ih rs2 hmp]

/-- Every rendered result comes from some input file. -/
theorem mapPosts_mem : ∀ (fs : List (List Char × List Char)) (rs : List (Option Post))
    (r : Option Post), mapPosts fs = some rs → r ∈ rs →
    ∃ f ∈ fs, processFile f.1 f.2 = some r := by
  intro fs
  induction fs with
  | nil =>
    intro rs r h hm
    cases h
    simp at hm
  | cons f fs2 ih =>
    intro rs r h hm
    unfold mapPosts at h
    cases hpf : processFile f.1 f.2 with
    | none => rw [hpf] at h; cases h
    | some r2 =>
      rw [hpf] at h
      cases hmp : mapPosts fs2 with
      | none => rw [hmp] at h; cases h
      | some rs2 =>
        rw [hmp] at h
        simp only [Option.map_some', Option.some.injEq] at h
        subst h
        rcases List.mem_cons.mp hm with hEq | h2
        · subst hEq
          exact ⟨f, List.mem_cons_self f fs2, hpf⟩
        · obtain ⟨f2, hf2, hpf2⟩ := ih rs2 r hmp h2
          exact ⟨f2, List.mem_cons_of_mem f hf2, hpf2⟩

/-- C7 (confirmed): in a successful run, every `.md` file whose parsed front
matter binds `draft` to `true` contributes no post, and every other `.md`
file contributes exactly one: the output length equals the number of
non-draft `.md` files, and each output post is the rendering of some
non-draft `.md` file. -/
theorem c7_drafts_excluded :
    ∀ files out, generateJson files = some out →
    out.length = ((files.filter (fun f => isSfx (chars ".md") f.1)).filter
        (fun f => !isDraftFile f)).length ∧
    ∀ p ∈ out, ∃ f ∈ files.filter (fun f => isSfx (chars ".md") f.1),
      isDraftFile f = false ∧ processFile f.1 f.2 = some (some p) := by
  intro files out h
  simp only [generateJson] at h
  cases hmp : mapPosts (files.filter (fun f => isSfx (chars ".md") f.1)) with
  | none => rw [hmp] at h; cases h
  | some rs =>
    rw [hmp] at h
    simp only [Option.map_some', Option.some.injEq] at h
    subst h
    constructor
    · rw [length_sortPosts]
      exact mapPosts_length _ rs hmp
    · intro p hp
      have hp2 : some p ∈ rs := by
        rw [mem_sortPosts] at hp
        rcases List.mem_filterMap.mp hp with ⟨r, hr, hid⟩
        cases r with
        | none => cases hid
        | some p2 => cases hid; exact hr
      obtain ⟨f, hf, hpf⟩ := mapPosts_mem _ rs (some p) hmp hp2
      refine ⟨f, hf, ?_, hpf⟩
      have hdr := isDraftFile_iff f.1 f.2 (some p) (by rw [hpf])
      cases hv : isDraftFile f with
      | false => rfl
      | true => exact absurd (hdr.mp hv) (by simp)

/-- Witness for C7: a draft file and a normal file yield one post. -/
theorem c7_drafts_excluded_witness :
    ([{ title := .str [], slug := .str (chars "k"), date := .str [],
        summary := .str [], tags := [], featured := false,
        content := chars "<p>ok</p>" }] : List Post).length =
      (([(chars "d.md", chars "---\ndraft: true\n---\nx"), (chars "k.md", chars "ok")].filter
          (fun f => isSfx (chars ".md") f.1)).filter (fun f => !isDraftFile f)).length :=
  (c7_drafts_excluded
    [(chars "d.md", chars "---\ndraft: true\n---\nx"), (chars "k.md", chars "ok")]
    [{ title := .str [], slug := .str (chars "k"), date := .str [],
       summary := .str [], tags := [], featured := false,
       content := chars "<p>ok</p>" }] rfl).1

/-- A defaulted value is truthy or equal to its default. -/
theorem jsOr_truthy_or_default (v : Option JSValue) (d : JSValue) :
    isTruthy (jsOr v d) = true ∨ jsOr v d = d := by
  cases v with
  | none => right; rfl
  | some x =>
    cases hx : isTruthy x with
    | true => left; simp [jsOr, hx]
    | false => right; simp [jsOr, hx]

/-- A falsy-or-absent value defaults. -/
theorem jsOr_of_falsy (v : Option JSValue) (d : JSValue)
    (h : jsFalsyOpt v = true) : jsOr v d = d := by
  cases v with
  | none => rfl
  | some x =>
    simp only [jsFalsyOpt, Bool.not_eq_true'] at h
    simp [jsOr, h]

/-- C10 (corrected): `tags` is always an array and `featured` a boolean by
construction, and the `||` defaults make `title`, `date`, `summary` either a
truthy parsed value or the empty string, and `slug` either a truthy parsed
value or the (string) filename-derived default — but a truthy parsed value
need not be a string (see the counterexample), so the fields are not always
strings. -/
theorem c10_field_defaults :
    ∀ files out, generateJson files = some out → ∀ p ∈ out,
      (isTruthy p.title = true ∨ p.title = .str []) ∧
      (isTruthy p.date = true ∨ p.date = .str []) ∧
      (isTruthy p.summary = true ∨ p.summary = .str []) ∧
      (isTruthy p.slug = true ∨ p.slug.isStr = true) := by
  intro files out h p hp
  simp only [generateJson] at h
  cases hmp : mapPosts (files.filter (fun f => isSfx (chars ".md") f.1)) with
  | none => rw [hmp] at h; cases h
  | some rs =>
    rw [hmp] at h
    simp only [Option.map_some', Option.some.injEq] at h
    subst h
    have hp2 : some p ∈ rs := by
      rw [mem_sortPosts] at hp
      rcases List.mem_filterMap.mp hp with ⟨r, hr, hid⟩
      cases r with
      | none => cases hid
      | some p2 => cases hid; exact hr
    obtain ⟨f, _, hpf⟩ := mapPosts_mem _ rs (some p) hmp hp2
    obtain ⟨data, content, _, ht, hs, hd, hsum⟩ := processFile_fields f.1 f.2 p hpf
    refine ⟨?_, ?_, ?_, ?_⟩
    · rw [ht]; exact jsOr_truthy_or_default _ _
    · rw [hd]; exact jsOr_truthy_or_default _ _
    · rw [hsum]; exact jsOr_truthy_or_default _ _
    · rw [hs]
      rcases jsOr_truthy_or_default (lookupKey (chars "slug") data)
          (.str (replaceFirst (chars ".md") f.1)) with h2 | h2
      · left; exact h2
      · right; rw [h2]; rfl

/-- Witness for C10 on a post with a boolean title. -/
theorem c10_field_defaults_witness :
    (isTruthy ({ title := .bool true, slug := .str (chars "t"), date := .str [],
                 summary := .str [], tags := [], featured := false,
                 content := chars "<p>x</p>" } : Post).title = true ∨
      ({ title := .bool true, slug := .str (chars "t"), date := .str [],
         summary := .str [], tags := [], featured := false,
         content := chars "<p>x</p>" } : Post).title = .str []) ∧
    (isTruthy ({ title := .bool true, slug := .str (chars "t"), date := .str [],
                 summary := .str [], tags := [], featured := false,
                 content := chars "<p>x</p>" } : Post).date = true ∨
      ({ title := .bool true, slug := .str (chars "t"), date := .str [],
         summary := .str [], tags := [], featured := false,
         content := chars "<p>x</p>" } : Post).date = .str []) ∧
    (isTruthy ({ title := .bool true, slug := .str (chars "t"), date := .str [],
                 summary := .str [], tags := [], featured := false,
                 content := chars "<p>x</p>" } : Post).summary = true ∨
      ({ title := .bool true, slug := .str (chars "t"), date := .str [],
         summary := .str [], tags := [], featured := false,
         content := chars "<p>x</p>" } : Post).summary = .str []) ∧
    (isTruthy ({ title := .bool true, slug := .str (chars "t"), date := .str [],
                 summary := .str [], tags := [], featured := false,
                 content := chars "<p>x</p>" } : Post).slug = true ∨
      ({ title := .bool true, slug := .str (chars "t"), date := .str [],
         summary := .str [], tags := [], featured := false,
         content := chars "<p>x</p>" } : Post).slug.isStr = true) :=
  c10_field_defaults [(chars "t.md", chars "---\ntitle: true\n---\nx")]
    [{ title := .bool true, slug := .str (chars "t"), date := .str [],
       summary := .str [], tags := [], featured := false,
       content := chars "<p>x</p>" }] rfl
    { title := .bool true, slug := .str (chars "t"), date := .str [],
      summary := .str [], tags := [], featured := false,
      content := chars "<p>x</p>" }
    (List.mem_singleton.mpr rfl)

/-- Appending `.md` cannot create an occurrence of `.md` at a position where
none existed: the pattern has no self-overlap, so no occurrence straddles
the boundary. -/
theorem isPfx_md_extend (c : Char) (t : List Char)
    (h : isPfx (chars ".md") (c :: t) = false) :
    isPfx (chars ".md") (c :: (t ++ chars ".md")) = false := by
  match t with
  | [] =>
    simp [chars, isPfx]
  | [d] =>
    simp [chars, isPfx]
  | d :: e :: t2 =>
    simp only [chars, isPfx, List.cons_append] at h ⊢
    simpa using h

/-- Removing the first occurrence of `.md` from `stem ++ ".md"` yields
`stem` when `stem` itself contains no `.md`. -/
theorem replaceFirst_stem : ∀ stem : List Char, hasSubstr (chars ".md") stem = false →
    replaceFirst (chars ".md") (stem ++ chars ".md") = stem := by
  intro stem
  induction stem with
  | nil => intro _; decide
  | cons c stem2 ih =>
    intro h
    have h2 : isPfx (chars ".md") (c :: stem2) = false ∧
        hasSubstr (chars ".md") stem2 = false := by
      simpa [hasSubstr, Bool.or_eq_false_iff] using h
    have hpf := isPfx_md_extend c stem2 h2.1
    simp only [List.cons_append, replaceFirst, List.append_eq, hpf, Bool.false_eq_true, if_false]
    rw [ih h2.2]

/-- C9 (corrected): when the front matter does not set `slug` (or sets it to
a falsy value), the post's slug is the filename with the FIRST occurrence of
`.md` removed.  That equals the filename without its `.md` extension exactly
when no `.md` occurs earlier in the name (second conjunct); when one does —
see the counterexample — the two differ. -/
theorem c9_slug_replace_first :
    (∀ name raw data content p,
      parseFrontMatter raw = some (data, content) →
      jsFalsyOpt (lookupKey (chars "slug") data) = true →
      processFile name raw = some (some p) →
      p.slug = .str (replaceFirst (chars ".md") name)) ∧
    (∀ stem, hasSubstr (chars ".md") stem = false →
      replaceFirst (chars ".md") (stem ++ chars ".md") = stem) := by
  constructor
  · intro name raw data content p hparse hfalsy hpf
    obtain ⟨data2, content2, hparse2, _, hs, _, _⟩ := processFile_fields name raw p hpf
    rw [hparse] at hparse2
    injection hparse2 with h2
    injection h2 with hd hc
    subst hd
    rw [hs]
    exact jsOr_of_falsy _ _ hfalsy
  · exact replaceFirst_stem

/-- Witness for C9 on the file `a.md` with no front matter. -/
theorem c9_slug_replace_first_witness :
    ({ title := .str [], slug := .str (chars "a"), date := .str [],
       summary := .str [], tags := [], featured := false,
       content := chars "<p>hello</p>" } : Post).slug =
        .str (replaceFirst (chars ".md") (chars "a.md")) ∧
    replaceFirst (chars ".md") (chars "a" ++ chars ".md") = chars "a" :=
  ⟨c9_slug_replace_first.1 (chars "a.md") (chars "hello") [] (chars "hello")
      { title := .str [], slug := .str (chars "a"), date := .str [],
        summary := .str [], tags := [], featured := false,
        content := chars "<p>hello</p>" } rfl rfl rfl,
   c9_slug_replace_first.2 (chars "a") rfl⟩

/-- C3 counterexample: the value `"abc` has an unmatched leading quote, yet
it is stored as `abc` — the leading quote is stripped, not left as-is. -/
theorem c3_unmatched_quote_counterexample :
    (parseFrontMatter (chars "---\ntitle: \"abc\n---\nx")).map
        (fun p => lookupKey (chars "title") p.1) = some (some (.str (chars "abc"))) ∧
    JSValue.str (chars "abc") ≠ JSValue.str (chars "\"abc") :=
  ⟨rfl, by intro h; injection h with h2; exact absurd h2 (by decide)⟩

/-! ## String-order lemmas -/

/-- Lexicographic string `<` is asymmetric. -/
theorem strLt_asymm : ∀ a b : List Char, strLt a b = true → strLt b a = false := by
  intro a
  induction a with
  | nil =>
    intro b h
    cases b with
    | nil => simp [strLt] at h
    | cons y bs => rfl
  | cons x as ih =>
    intro b h
    cases b with
    | nil => simp [strLt] at h
    | cons y bs =>
      by_cases h1 : cn x < cn y
      · have h2 : ¬ cn y < cn x := by omega
        simp [strLt, h1, h2]
      · by_cases h2 : cn y < cn x
        · simp [strLt, h1, h2] at h
        · have h3 : strLt as bs = true := by simpa [strLt, h1, h2] using h
          simp [strLt, h1, h2, ih bs h3]

/-- The complement of lexicographic string `<` is transitive. -/
theorem notStrLt_trans : ∀ a b c : List Char,
    strLt a b = false → strLt b c = false → strLt a c = false := by
  intro a
  induction a with
  | nil =>
    intro b c hab hbc
    cases b with
    | nil => exact hbc
    | cons y bs => simp [strLt] at hab
  | cons x as ih =>
    intro b c hab hbc
    cases c with
    | nil => rfl
    | cons z cs =>
      cases b with
      | nil => simp [strLt] at hbc
      | cons y bs =>
        by_cases h1 : cn x < cn y
        · simp [strLt, h1] at hab
        · by_cases h2 : cn y < cn z
          · simp [strLt, h2] at hbc
          · by_cases h3 : cn x < cn z
            · omega
            · by_cases h4 : cn z < cn x
              · simp [strLt, h3, h4]
              · have hab2 : strLt as bs = false := by
                  have h5 : ¬ cn y < cn x := by omega
                  simpa [strLt, h1, h5] using hab
                have hbc2 : strLt bs cs = false := by
                  have h6 : ¬ cn z < cn y := by omega
                  simpa [strLt, h2, h6] using hbc
                simp [strLt, h3, h4, ih bs cs hab2 hbc2]

/-- A string value is some `str`. -/
theorem isStr_exists (v : JSValue) (h : v.isStr = true) : ∃ s, v = .str s := by
  cases v with
  | str s => exact ⟨s, rfl⟩
  | nul => simp [JSValue.isStr] at h
  | bool b => simp [JSValue.isStr] at h
  | num l => simp [JSValue.isStr] at h
  | arr xs => simp [JSValue.isStr] at h
  | obj fs => simp [JSValue.isStr] at h

/-- Inserting into a descending (by string date) list keeps it descending. -/
theorem pairwise_insertPost :
    ∀ (p : Post) (l : List Post),
    p.date.isStr = true → (∀ q ∈ l, q.date.isStr = true) →
    List.Pairwise (fun a b => jsLt a.date b.date = false) l →
    List.Pairwise (fun a b => jsLt a.date b.date = false) (insertPost p l) := by
  intro p l
  induction l with
  | nil => intro _ _ _; simp [insertPost]
  | cons q qs ih =>
    intro hp hl hpw
    obtain ⟨ps, hps⟩ := isStr_exists p.date hp
    obtain ⟨qs2, hqs2⟩ := isStr_exists q.date (hl q (List.mem_cons_self q qs))
    rcases List.pairwise_cons.mp hpw with ⟨hq, hpw2⟩
    cases hcmp : jsLt p.date q.date with
    | true =>
      simp only [insertPost, hcmp, if_true]
      rw [List.pairwise_cons]
      constructor
      · intro x hx
        rcases (mem_insertPost p qs x).mp hx with hEq | hxqs
        · subst hEq
          rw [hps, hqs2] at hcmp ⊢
          simp only [jsLt] at hcmp ⊢
          exact strLt_asymm ps qs2 hcmp
        · exact hq x hxqs
      · exact ih hp (fun r hr => hl r (List.mem_cons_of_mem q hr)) hpw2
    | false =>
      simp only [insertPost, hcmp, Bool.false_eq_true, if_false]
      rw [List.pairwise_cons]
      constructor
      · intro x hx
        rcases List.mem_cons.mp hx with hEq | hxqs
        · subst hEq; exact hcmp
        · obtain ⟨xs, hxs⟩ := isStr_exists x.date
            (hl x (List.mem_cons_of_mem q hxqs))
          have hqx := hq x hxqs
          rw [hps] at hcmp ⊢
          rw [hqs2] at hcmp hqx
          rw [hxs] at hqx ⊢
          simp only [jsLt] at hcmp hqx ⊢
          exact notStrLt_trans ps qs2 xs hcmp hqx
      · exact hpw

/-- The sort produces a descending (by string date) list when all dates are
strings. -/
theorem sortPosts_sorted :
    ∀ l : List Post, (∀ q ∈ l, q.date.isStr = true) →
    List.Pairwise (fun a b => jsLt a.date b.date = false) (sortPosts l) := by
  intro l
  induction l with
  | nil => intro _; simp [sortPosts]
  | cons p l2 ih =>
    intro h
    have hstep : sortPosts (p :: l2) = insertPost p (sortPosts l2) := rfl
    rw [hstep]
    apply pairwise_insertPost p (sortPosts l2) (h p (List.mem_cons_self p l2))
    · intro q hq
      exact h q (List.mem_cons_of_mem p ((mem_sortPosts l2 q).mp hq))
    · exact ih (fun q hq => h q (List.mem_cons_of_mem p hq))

/-- C4 (corrected): the output is ordered by `date` descending, comparing
dates as strings; a missing date becomes the empty string, which is the
LEAST string, so undated posts sort last (not as greatest).  In the
three-post example the order is 2024-06-01, 2024-01-01, then the undated
post. -/
theorem c4_date_descending :
    (∀ files out, generateJson files = some out →
      (∀ p ∈ out, p.date.isStr = true) →
      List.Pairwise (fun a b => jsLt a.date b.date = false) out) ∧
    generateJson [(chars "a.md", chars "---\ndate: 2024-01-01\n---\nx"),
                  (chars "b.md", chars "---\ndate: 2024-06-01\n---\ny"),
                  (chars "u.md", chars "z")] =
      some [postJun, postJan, postUndated] := by
  constructor
  · intro files out h hstr
    simp only [generateJson] at h
    cases hmp : mapPosts (files.filter (fun f => isSfx (chars ".md") f.1)) with
    | none => rw [hmp] at h; cases h
    | some rs =>
      rw [hmp] at h
      simp only [Option.map_some', Option.some.injEq] at h
      subst h
      apply sortPosts_sorted
      intro q hq
      exact hstr q ((mem_sortPosts _ q).mpr hq)
  · rfl

/-- Witness for C4 on the three-post example. -/
theorem c4_date_descending_witness :
    List.Pairwise (fun a b => jsLt a.date b.date = false)
      [postJun, postJan, postUndated] :=
  c4_date_descending.1
    [(chars "a.md", chars "---\ndate: 2024-01-01\n---\nx"),
     (chars "b.md", chars "---\ndate: 2024-06-01\n---\ny"),
     (chars "u.md", chars "z")]
    [postJun, postJan, postUndated] rfl (by decide)
